import Mathlib

/-
Verification development for the lead2lead CNPJ ingestion pipeline
(scripts/cnpj_ingest_duckdb.py, scripts/cnpj_ingest_duckdb_v2.py,
scripts/renomear_colunas.py).

The Python sources are shallowly embedded: text is `List Char` (latin1
codepoints as Lean chars), byte streams are `List Nat` (values < 256),
files are lists of lines, and the pandas / requests / zipfile behaviour
actually exercised by the scripts is modelled explicitly.  All
definitions are executable and kernel-reducible so that concrete runs
can be checked by `decide` / `rfl`.
-/

/-! ## Basic string utilities (Python `str` operations on `List Char`) -/

/-- Python `str.lower` for the ASCII and Latin-1 letters that occur in the
Receita Federal dumps (`latin1` encoded).  Uppercase Latin-1 letters sit
0x20 below their lowercase forms, except the multiplication sign 0xD7. -/
def lowerChar (c : Char) : Char :=
  if 'A' ≤ c ∧ c ≤ 'Z' then Char.ofNat (c.toNat + 32)
  else if 0xC0 ≤ c.toNat ∧ c.toNat ≤ 0xDE ∧ c.toNat ≠ 0xD7 then Char.ofNat (c.toNat + 32)
  else c

def lowerL (l : List Char) : List Char := l.map lowerChar

/-- `True` when `pat` is an initial segment of `l`. -/
def startsWithL : List Char → List Char → Bool
  | [], _ => true
  | _ :: _, [] => false
  | a :: as, b :: bs => a = b && startsWithL as bs

/-- Python `str.endswith`. -/
def endsWithL (pat l : List Char) : Bool := startsWithL pat.reverse l.reverse

/-- Python `pat in s` substring containment. -/
def occursIn (pat : List Char) : List Char → Bool
  | [] => startsWithL pat []
  | c :: rest => startsWithL pat (c :: rest) || occursIn pat rest

/-- Python `str.split(sep)` for a one-character separator. -/
def splitOnChar (sep : Char) : List Char → List (List Char)
  | [] => [[]]
  | c :: cs =>
    match splitOnChar sep cs with
    | [] => [[]]
    | f :: rest => if c = sep then [] :: f :: rest else (c :: f) :: rest

/-- Strict lexicographic comparison of two character lists: this is how
Python compares `str` values (and hence how `sorted` orders URLs). -/
def lexLt : List Char → List Char → Bool
  | [], [] => false
  | [], _ :: _ => true
  | _ :: _, [] => false
  | a :: as, b :: bs => a < b || (a = b && lexLt as bs)

def lexLe (a b : List Char) : Bool := !(lexLt b a)

/-- Insertion of one element into a lexicographically sorted list. -/
def insertSorted (a : List Char) : List (List Char) → List (List Char)
  | [] => [a]
  | b :: bs => if lexLe a b then a :: b :: bs else b :: insertSorted a bs

/-- Python `sorted` on a collection of strings (insertion sort; the
result is the unique ≤-sorted arrangement, so the algorithm choice is
immaterial). -/
def sortStrings (l : List (List Char)) : List (List Char) := l.foldr insertSorted []

/-! ## Column dictionaries and dataset detection
(`cnpj_ingest_duckdb_v2.py`, `COLS` / `DETECT_MAP`) -/

/-- The fixed per-dataset column dictionaries (`COLS`). -/
def COLS : List (String × List String) :=
  [("cnaes", ["codigo", "descricao"]),
   ("empresas",
     ["cnpj_basico", "razao_social", "natureza_juridica", "qualificacao_responsavel",
      "capital_social_empresa", "porte_empresa", "ente_federativo_responsavel"]),
   ("estabelecimentos",
     ["cnpj_basico", "cnpj_ordem", "cnpj_dv", "identificador_matriz_filial",
      "nome_fantasia", "situacao_cadastral", "data_situacao_cadastral",
      "motivo_situacao_cadastral", "nome_cidade_exterior", "pais",
      "data_inicio_atividade", "cnae_fiscal_principal", "cnae_fiscal_secundaria",
      "tipo_logradouro", "logradouro", "numero", "complemento", "bairro", "cep",
      "uf", "municipio", "ddd_1", "telefone_1", "ddd_2", "telefone_2", "ddd_fax",
      "fax", "correio_eletronico", "situacao_especial", "data_situacao_especial"]),
   ("municipios", ["codigo", "descricao"]),
   ("simples",
     ["cnpj_basico", "opcao_simples", "data_opcao_simples", "data_exclusao_simples",
      "opcao_mei", "data_opcao_mei", "data_exclusao_mei"]),
   ("motivos", ["codigo", "descricao"]),
   ("naturezas", ["codigo", "descricao"]),
   ("socios",
     ["cnpj_basico", "identificador_socio", "nome_socio_ou_razao_social",
      "cnpj_cpf_socio", "qualificacao_socio", "data_entrada_sociedade", "pais",
      "representante_legal", "nome_representante", "qualificacao_representante_legal",
      "faixa_etaria"]),
   ("paises", ["codigo", "descricao"]),
   ("qualificacoes", ["codigo", "descricao"])]

/-- Filename keywords for dataset-kind detection (`DETECT_MAP`), in the
source's evaluation order. -/
def DETECT_MAP : List (String × List String) :=
  [("empresas", ["empresas", "emprecsv"]),
   ("estabelecimentos", ["estabele", "estabcsv"]),
   ("simples", ["simples"]),
   ("cnaes", ["cnaes", "cnae"]),
   ("municipios", ["municipios", "municípios", "municipio", "municcsv"]),
   ("naturezas", ["naturezas", "natureza", "natjucsv"]),
   ("motivos", ["motivos", "motivo", "moticsv"]),
   ("socios", ["socios", "sócios", "sociccsv", "socioscsv", "sociocsv"]),
   ("paises", ["paises", "países", "pais"]),
   ("qualificacoes", ["qualificacoes", "qualificações", "qualif", "qualscsv"])]

/-- `detect_base_from_filename`: lowercase the file name and return the
first dictionary key one of whose keywords occurs in it, else `""`. -/
def detect_base_from_filename (fname : List Char) : String :=
  let n := lowerL fname
  match DETECT_MAP.find? (fun p => p.2.any (fun k => occursIn k.data n)) with
  | some p => p.1
  | none => ""

/-- Synthetic positional column name, Python `f"col_{i:02d}"`. -/
def autoColName (i : Nat) : String :=
  "col_" ++ (if i < 10 then "0" ++ Nat.repr i else Nat.repr i)

/-- The synthetic fallback name vector `col_00 .. col_(n-1)`. -/
def auto_names (n : Nat) : List String := (List.range n).map autoColName

/-- `choose_column_names` (v2 script): `some names` forces that vector on
the data; `none` means "the CSV already carries a usable header, keep it".
Python's `if target and len(target) == ncols_detected` treats a missing
key (`None`) and an empty list alike, hence the `getD []`. -/
def choose_column_names (base : String) (ncolsDetected : Nat) (headerPresent : Bool) :
    Option (List String) :=
  let target := (List.lookup base COLS).getD []
  if target ≠ [] ∧ target.length = ncolsDetected then some target
  else if headerPresent then none
  else some (auto_names ncolsDetected)

/-! ## Header heuristic and the CSV → Parquet conversion
(`cnpj_ingest_duckdb_v2.py`, `looks_like_header` / `csv_to_parquet`) -/

/-- One character of the regex class `[A-Za-zÀ-ÿ_]` used by
`looks_like_header` (the À-ÿ range is codepoints 0xC0-0xFF). -/
def isHeaderLetter (c : Char) : Bool :=
  ('A' ≤ c && c ≤ 'Z') || ('a' ≤ c && c ≤ 'z') ||
    (0xC0 ≤ c.toNat && c.toNat ≤ 0xFF) || c = '_'

/-- `looks_like_header`: the first line is considered a header when it
contains the `;` delimiter and at least one letter. -/
def looks_like_header (line : List Char) : Bool :=
  line.contains ';' && line.any isHeaderLetter

/-- Fields of one line under the Receita layout (`sep=";"`). -/
def splitSemi (line : List Char) : List (List Char) := splitOnChar ';' line

/-- Missing-value padding: the pandas python engine keeps a row that has
fewer fields than the schema and fills the missing trailing columns with
NaN (modelled as `none`). -/
def padRow (n : Nat) (row : List (List Char)) : List (Option (List Char)) :=
  row.map some ++ List.replicate (n - row.length) none

/-- Row handling of `pd.read_csv(..., engine="python", on_bad_lines="warn")`
against an `n`-column layout: a row with more than `n` fields is a "bad
line" - skipped with a `ParserWarning` - while a row with at most `n`
fields is kept (short rows are NaN-padded).  Returns the kept rows and
the number of warnings. -/
def read_csv_rows (n : Nat) : List (List (List Char)) → List (List (Option (List Char))) × Nat
  | [] => ([], 0)
  | r :: rs =>
    let p := read_csv_rows n rs
    if r.length ≤ n then (padRow n r :: p.1, p.2) else (p.1, p.2 + 1)

/-- Result of one CSV → Parquet conversion: the column names written to
the Parquet schema, the data rows written, and the bad-line warnings. -/
structure ConvOut where
  colNames : List (List Char)
  rows : List (List (Option (List Char)))
  badLines : Nat
deriving DecidableEq, Repr

/-- `csv_to_parquet` (v2 script) on a non-empty text file with first line
`l0` and remaining lines `rest`.  The sample read establishes the column
count from the first line; `choose_column_names` then either defers to the
file's header (`none`: the definitive read uses `header=0`, so `l0`
provides the names and only `rest` is data) or forces a name vector
(`some`: the definitive read uses `header=None`, so every line - `l0`
included - is data). -/
def csv_to_parquet (fname l0 : List Char) (rest : List (List Char)) : ConvOut :=
  let base := detect_base_from_filename fname
  let headerPresent := looks_like_header l0
  let ncols := (splitSemi l0).length
  match choose_column_names base ncols headerPresent with
  | none =>
    let p := read_csv_rows ncols (rest.map splitSemi)
    ⟨splitSemi l0, p.1, p.2⟩
  | some nms =>
    let p := read_csv_rows ncols ((l0 :: rest).map splitSemi)
    ⟨nms.map String.data, p.1, p.2⟩

/-! ## Encoding normalizer (`cnpj_ingest_duckdb.py`, `ensure_utf8`)
Bytes are `Nat` values < 256. -/

/-- Strict UTF-8 validation as a byte-level state machine: the first
argument lists the (lo, hi) bounds the pending continuation bytes must
satisfy.  On no pending expectation a lead byte is classified: ASCII, a
2-byte lead C2-DF, a 3-byte lead E0/ED (with restricted second byte,
excluding overlong forms and surrogates) or E1-EC/EE-EF, a 4-byte lead
F0/F4 (restricted) or F1-F3; anything else (80-C1, F5-FF) is invalid. -/
def utf8Run : List (Nat × Nat) → List Nat → Bool
  | [], [] => true
  | _ :: _, [] => false
  | (lo, hi) :: exp, b :: rest => (lo ≤ b && b ≤ hi) && utf8Run exp rest
  | [], b :: rest =>
    if b < 0x80 then utf8Run [] rest
    else if b < 0xC2 then false
    else if b ≤ 0xDF then utf8Run [(0x80, 0xBF)] rest
    else if b = 0xE0 then utf8Run [(0xA0, 0xBF), (0x80, 0xBF)] rest
    else if b = 0xED then utf8Run [(0x80, 0x9F), (0x80, 0xBF)] rest
    else if b ≤ 0xEF then utf8Run [(0x80, 0xBF), (0x80, 0xBF)] rest
    else if b = 0xF0 then utf8Run [(0x90, 0xBF), (0x80, 0xBF), (0x80, 0xBF)] rest
    else if b = 0xF4 then utf8Run [(0x80, 0x8F), (0x80, 0xBF), (0x80, 0xBF)] rest
    else if b ≤ 0xF4 then utf8Run [(0x80, 0xBF), (0x80, 0xBF), (0x80, 0xBF)] rest
    else false

/-- Strict UTF-8 validity of a byte sequence, as checked by Python's
`bytes.decode("utf-8")` (rejects overlong forms, surrogates, truncated
sequences and codepoints above U+10FFFF). -/
def utf8ValidBytes (l : List Nat) : Bool := utf8Run [] l

/-- The decoding companion of `utf8Run`: the state additionally carries
the codepoint accumulated so far, extended by 6 bits per continuation
byte. -/
def utf8DecodeRun : Option (Nat × (Nat × Nat) × List (Nat × Nat)) → List Nat →
    Option (List Nat)
  | none, [] => some []
  | some _, [] => none
  | some (cp, (lo, hi), []), b :: rest =>
    if lo ≤ b && b ≤ hi then (utf8DecodeRun none rest).map ((cp * 0x40 + (b - 0x80)) :: ·)
    else none
  | some (cp, (lo, hi), m1 :: ms), b :: rest =>
    if lo ≤ b && b ≤ hi then utf8DecodeRun (some (cp * 0x40 + (b - 0x80), m1, ms)) rest
    else none
  | none, b :: rest =>
    if b < 0x80 then (utf8DecodeRun none rest).map (b :: ·)
    else if b < 0xC2 then none
    else if b ≤ 0xDF then utf8DecodeRun (some (b - 0xC0, (0x80, 0xBF), [])) rest
    else if b = 0xE0 then utf8DecodeRun (some (b - 0xE0, (0xA0, 0xBF), [(0x80, 0xBF)])) rest
    else if b = 0xED then utf8DecodeRun (some (b - 0xE0, (0x80, 0x9F), [(0x80, 0xBF)])) rest
    else if b ≤ 0xEF then utf8DecodeRun (some (b - 0xE0, (0x80, 0xBF), [(0x80, 0xBF)])) rest
    else if b = 0xF0 then
      utf8DecodeRun (some (b - 0xF0, (0x90, 0xBF), [(0x80, 0xBF), (0x80, 0xBF)])) rest
    else if b = 0xF4 then
      utf8DecodeRun (some (b - 0xF0, (0x80, 0x8F), [(0x80, 0xBF), (0x80, 0xBF)])) rest
    else if b ≤ 0xF4 then
      utf8DecodeRun (some (b - 0xF0, (0x80, 0xBF), [(0x80, 0xBF), (0x80, 0xBF)])) rest
    else none

/-- Strict UTF-8 decoding to a codepoint sequence (`some` exactly on the
inputs `utf8ValidBytes` accepts). -/
def utf8DecodeBytes (l : List Nat) : Option (List Nat) := utf8DecodeRun none l

/-- The latin1 → UTF-8 transcoding performed by reading a file with
`encoding="latin1"` and writing it with `encoding="utf-8"`: every byte
decodes to the codepoint of the same value, which UTF-8 re-encodes as one
byte (< 0x80) or two bytes (0x80-0xFF).  The line-by-line batching of the
source concatenates to exactly this byte stream. -/
def latin1ToUtf8 : List Nat → List Nat
  | [] => []
  | v :: vs =>
    (if v < 0x80 then [v] else [0xC0 + v / 0x40, 0x80 + v % 0x40]) ++ latin1ToUtf8 vs

/-- Outcome of `ensure_utf8`: either the original path is handed back
untouched, or a new transcoded file (with the given bytes) is produced. -/
inductive NormResult where
  | original
  | transcoded (out : List Nat)
deriving DecidableEq, Repr

/-- `ensure_utf8`: sample the first 1_000_000 bytes (`f.read(1_000_000)`);
if they decode as UTF-8 the original file is returned unchanged, else the
whole file is transcoded latin1 → UTF-8 into a new `.utf8.csv` file. -/
def ensure_utf8 (content : List Nat) : NormResult :=
  if utf8ValidBytes (content.take 1000000) then .original
  else .transcoded (latin1ToUtf8 content)

/-! ## Resumable fetcher (`download_file`, identical in both scripts)
The remote server is a function from the optional `Range` start offset
to the response body it returns (a `raise_for_status`-passing response;
a failing response raises and no bytes are written, so it is outside
this function's domain). -/

/-- `download_file`, given the bytes already present in the `.part` file
(empty when there is none): a `Range: bytes=k-` header is sent iff k > 0,
and the response body is appended to the partial bytes; the result is the
content of the finally renamed destination file.  The response status is
only checked for success, never for `206 Partial Content` vs `200 OK`. -/
def download_file (partContent : List Nat) (server : Option Nat → List Nat) : List Nat :=
  let downloaded := partContent.length
  let rangeStart : Option Nat := if 0 < downloaded then some downloaded else none
  partContent ++ server rangeStart

/-- A server that honors byte-range requests for a fixed archive stream:
a plain request yields the full stream, a ranged request the suffix. -/
def honorsRange (server : Option Nat → List Nat) (stream : List Nat) : Prop :=
  server none = stream ∧ ∀ k, server (some k) = stream.drop k

/-! ## Archive extractor (`unzip_single_csv`, identical in both scripts) -/

/-- One archive member as listed by `zipfile`: its internal name and its
uncompressed `file_size`. -/
structure ZipEntry where
  name : List Char
  fsize : Nat
deriving DecidableEq, Repr

/-- Candidate class 1: `m.lower().endswith(("csv", ".csv", ".txt"))`. -/
def endsCsvTxt (n : List Char) : Bool :=
  endsWithL "csv".data (lowerL n) || endsWithL ".csv".data (lowerL n) ||
    endsWithL ".txt".data (lowerL n)

/-- Candidate class 2: `"csv" in m.lower()`. -/
def containsCsvTok (n : List Char) : Bool := occursIn "csv".data (lowerL n)

/-- Python `max(names, key=...)`: fold that replaces the current best only
on a strictly larger key, so ties keep the earliest element. -/
def pythonMax (e : ZipEntry) (l : List ZipEntry) : ZipEntry :=
  l.foldl (fun a b => if a.fsize < b.fsize then b else a) e

/-- The member-selection logic of `unzip_single_csv`: first non-empty
candidate class wins, and `cand[0]` - the first member in the archive's
listing order - is taken from it.  `none` models the `RuntimeError` on an
empty archive. -/
def unzip_single_csv : List ZipEntry → Option ZipEntry
  | [] => none
  | n0 :: ns =>
    let names := n0 :: ns
    let cand1 := names.filter (fun m => endsCsvTxt m.name)
    let cand2 := if cand1 = [] then names.filter (fun m => containsCsvTok m.name) else cand1
    let cand3 := if cand2 = [] then [pythonMax n0 ns] else cand2
    cand3.head?

/-- `Path(member).name`: the last `/`-separated segment. -/
def basenameOf (member : List Char) : List Char :=
  ((splitOnChar '/' member).getLast?).getD []

/-- The name of the extracted file finally returned by `unzip_single_csv`:
the member's base name, with `.csv` appended when it does not already end
with it (case-insensitively).  Both the moved-from-subfolder path and the
renamed-in-place path of the source produce exactly this name. -/
def out_name (member : List Char) : List Char :=
  let o := basenameOf member
  if endsWithL ".csv".data (lowerL o) then o else o ++ ".csv".data

/-! ## Archive index resolver (`list_zip_links`, identical in both scripts) -/

/-- Fuel-driven scan for the non-overlapping matches of the pattern
`href="([^"]+\.zip)"` (case-insensitive), returning the captured groups in
order: at each position, if the next six characters are `href="` and the
following non-quote run is non-empty, ends in `.zip` (case-insensitively)
and is terminated by `"`, the run is captured and scanning resumes after
the closing quote; otherwise scanning advances one character.  Each step
consumes at least one character, so fuel `length + 1` never runs out; the
fuel only makes the recursion structural. -/
def hrefScanF : Nat → List Char → List (List Char)
  | 0, _ => []
  | _ + 1, [] => []
  | fuel + 1, c :: tl =>
    if lowerL (List.take 6 (c :: tl)) = "href=\"".data then
      let rest := List.drop 6 (c :: tl)
      let grp := rest.takeWhile (fun d => d ≠ '"')
      match rest.dropWhile (fun d => d ≠ '"') with
      | '"' :: after =>
        if grp ≠ [] ∧ endsWithL ".zip".data (lowerL grp) then grp :: hrefScanF fuel after
        else hrefScanF fuel tl
      | _ => hrefScanF fuel tl
    else hrefScanF fuel tl

/-- `ZIP_PATTERN.findall(r.text)`. -/
def hrefScan (body : List Char) : List (List Char) := hrefScanF (body.length + 1) body

/-- `list_zip_links`: fetch the listing page (`none` models a request that
raises, either on connection failure or via `raise_for_status`), collect
the `href` targets ending in `.zip`, resolve each against the base URL
(`urljoin base`, passed in as `join`), deduplicate, sort, and fail with
the `RuntimeError("Nenhum .zip encontrado...")` when nothing was found. -/
def list_zip_links (join : List Char → List Char) (fetched : Option (List Char)) :
    Except String (List (List Char)) :=
  match fetched with
  | none => .error "network error"
  | some body =>
    let zips := sortStrings ((hrefScan body).map join).dedup
    if zips = [] then .error "Nenhum .zip encontrado. Verifique o base_url."
    else .ok zips

/-! ## Ingestion orchestrator (`main` / `process_one_zip`) -/

/-- Python `url.rstrip("/").split("/")[-1]`. -/
def zipNameOf (url : List Char) : List Char :=
  let stripped := ((url.reverse.dropWhile (fun c => c = '/'))).reverse
  ((splitOnChar '/' stripped).getLast?).getD []

/-- `Path(name).stem`: the name with its final `.suffix` removed (the name
itself when it contains no dot). -/
def stemOf (name : List Char) : List Char :=
  match name.reverse.dropWhile (fun c => c ≠ '.') with
  | [] => name
  | _ :: r => r.reverse

/-- The on-disk state the pipeline mutates, plus network-activity
counters: `zips` is `workDir/zips` (name ↦ bytes), `artifacts` is
`outDir` (stem ↦ parquet bytes). -/
structure OrchState where
  zips : List (List Char × List Nat)
  artifacts : List (List Char × List Nat)
  listingFetches : Nat
  archiveDownloads : Nat
deriving DecidableEq, Repr

/-- The run's fixed environment: listing page body (`none` = fetch
raises), URL resolution, the remote archive bytes per URL, the
`zipfile.testzip` integrity verdict, and the extract-normalize-convert
composition producing an artifact from archive bytes. -/
structure PipeEnv where
  listingBody : Option (List Char)
  join : List Char → List Char
  fetchBytes : List Char → List Nat
  zipOk : List Nat → Bool
  convert : List Nat → List Nat

def eraseKey (k : List Char) (l : List (List Char × List Nat)) :
    List (List Char × List Nat) :=
  l.filter (fun p => p.1 ≠ k)

/-- `process_one_zip` with the default flags (`keep_zip`/`keep_csv`
false): if the target parquet already exists the archive is skipped
before anything else; otherwise an existing zip is integrity-checked and
reused (re-downloaded when corrupt), a missing zip is downloaded, the
artifact is produced, and the temporary zip is deleted again. -/
def process_one_zip (env : PipeEnv) (st : OrchState) (url : List Char) : OrchState :=
  let zipName := zipNameOf url
  let stem := stemOf zipName
  if (List.lookup stem st.artifacts).isSome then st
  else
    let dl : List (List Char × List Nat) × Nat × List Nat :=
      match List.lookup zipName st.zips with
      | some bytes =>
        if env.zipOk bytes then (st.zips, st.archiveDownloads, bytes)
        else ((zipName, env.fetchBytes url) :: eraseKey zipName st.zips,
              st.archiveDownloads + 1, env.fetchBytes url)
      | none =>
        ((zipName, env.fetchBytes url) :: st.zips,
         st.archiveDownloads + 1, env.fetchBytes url)
    { zips := eraseKey zipName dl.1,
      artifacts := (stem, env.convert dl.2.2) :: st.artifacts,
      listingFetches := st.listingFetches,
      archiveDownloads := dl.2.1 }

/-- One whole pipeline run (`main`): one listing fetch, then the
per-archive loop over the sorted zip list; a discovery failure ends the
run with nothing processed. -/
def run_pipeline (env : PipeEnv) (st : OrchState) : OrchState :=
  let st1 : OrchState :=
    { st with listingFetches := st.listingFetches + 1 }
  match list_zip_links env.join env.listingBody with
  | .error _ => st1
  | .ok zips => zips.foldl (process_one_zip env) st1

/-! ## Column-name canonicalization (`renomear_colunas.py`) -/

def isLowerAlnum (c : Char) : Bool := ('a' ≤ c && c ≤ 'z') || ('0' ≤ c && c ≤ '9')

/-- A character admissible in a canonical SQL column name. -/
def isCanonChar (c : Char) : Bool := isLowerAlnum c || c = '_'

/-- The `unidecode` library restricted to the Latin-1 range the Receita
datasets use: ASCII is untouched, accented Latin-1 letters fold to their
ASCII base letters, anything else maps to nothing. -/
def unidecodeChar (c : Char) : List Char :=
  let n := c.toNat
  if n < 0x80 then [c]
  else if 0xC0 ≤ n ∧ n ≤ 0xC5 then ['A']
  else if n = 0xC6 then ['A', 'E']
  else if n = 0xC7 then ['C']
  else if 0xC8 ≤ n ∧ n ≤ 0xCB then ['E']
  else if 0xCC ≤ n ∧ n ≤ 0xCF then ['I']
  else if n = 0xD0 then ['D']
  else if n = 0xD1 then ['N']
  else if 0xD2 ≤ n ∧ n ≤ 0xD6 then ['O']
  else if n = 0xD7 then ['x']
  else if n = 0xD8 then ['O']
  else if 0xD9 ≤ n ∧ n ≤ 0xDC then ['U']
  else if n = 0xDD then ['Y']
  else if n = 0xDE then ['T', 'h']
  else if n = 0xDF then ['s', 's']
  else if 0xE0 ≤ n ∧ n ≤ 0xE5 then ['a']
  else if n = 0xE6 then ['a', 'e']
  else if n = 0xE7 then ['c']
  else if 0xE8 ≤ n ∧ n ≤ 0xEB then ['e']
  else if 0xEC ≤ n ∧ n ≤ 0xEF then ['i']
  else if n = 0xF0 then ['d']
  else if n = 0xF1 then ['n']
  else if 0xF2 ≤ n ∧ n ≤ 0xF6 then ['o']
  else if n = 0xF8 then ['o']
  else if 0xF9 ≤ n ∧ n ≤ 0xFC then ['u']
  else if n = 0xFD ∨ n = 0xFF then ['y']
  else if n = 0xFE then ['t', 'h']
  else []

def unidecodeL (l : List Char) : List Char := (l.map unidecodeChar).flatten

/-- Python `str.strip()` (whitespace at both ends). -/
def stripWs (l : List Char) : List Char :=
  ((l.dropWhile Char.isWhitespace).reverse.dropWhile Char.isWhitespace).reverse

/-- `re.sub(r"[^a-z0-9]+", "_", s)`: every maximal run of non-alphanumeric
characters becomes a single underscore (which also makes the source's
follow-up `re.sub(r"_+", "_", .)` a no-op).  The flag records whether the
previous character belonged to a run already replaced. -/
def collapseGo : Bool → List Char → List Char
  | _, [] => []
  | inRun, c :: cs =>
    if isLowerAlnum c then c :: collapseGo false cs
    else if inRun then collapseGo true cs
    else '_' :: collapseGo true cs

def collapseNonAlnum (l : List Char) : List Char := collapseGo false l

/-- Python `str.strip("_")`. -/
def stripUnderscores (l : List Char) : List Char :=
  (((l.dropWhile (fun c => c = '_'))).reverse.dropWhile (fun c => c = '_')).reverse

/-- `to_sql_name`: unidecode, lowercase, strip, collapse non-alphanumeric
runs to `_`, strip underscores. -/
def to_sql_name (raw : List Char) : List Char :=
  stripUnderscores (collapseNonAlnum (stripWs (lowerL (unidecodeL raw))))

/-- `unique`: empty names become `col`; a name already seen `k` times is
emitted as `name_(k+1)`, with the count map threaded through (newest
binding first, as the Python dict update). -/
def uniqueGo : List (List Char × Nat) → List (List Char) → List (List Char)
  | _, [] => []
  | seen, n0 :: ns =>
    let n := if n0 = [] then "col".data else n0
    match List.lookup n seen with
    | none => n :: uniqueGo ((n, 1) :: seen) ns
    | some k => (n ++ '_' :: (Nat.repr (k + 1)).data) :: uniqueGo ((n, k + 1) :: seen) ns

def unique (names : List (List Char)) : List (List Char) := uniqueGo [] names

def isDigitChar (c : Char) : Bool := '0' ≤ c && c ≤ '9'

/-- `re.fullmatch(r"\d+(\.\d+)?", n)`. -/
def isDigitsName (n : List Char) : Bool :=
  match splitOnChar '.' n with
  | [a] => a ≠ [] && a.all isDigitChar
  | [a, b] => a ≠ [] && a.all isDigitChar && b ≠ [] && b.all isDigitChar
  | _ => false

/-- The loop body of `auto_sql_headers`: canonicalize one name, replacing
an empty / `unnamed*` / purely numeric result by the positional `col_XX`. -/
def auto_sql_entry (i : Nat) (c : List Char) : List Char :=
  let n := to_sql_name c
  if n = [] || startsWithL "unnamed".data n || isDigitsName n then (autoColName i).data
  else n

/-- `auto_sql_headers`: canonicalize each name, replace empty /
`unnamed*` / purely numeric results by the positional `col_XX`, then
disambiguate with `unique`. -/
def auto_sql_headers (cols : List (List Char)) : List (List Char) :=
  unique (cols.enum.map (fun p => auto_sql_entry p.1 p.2))

/-- A one-archive demonstration environment: the listing page advertises
`a.zip`; fetching and converting are concrete trivial functions. -/
def demoPipeEnv : PipeEnv :=
  { listingBody := some "<a href=\"a.zip\"></a>".data
    join := id
    fetchBytes := fun _ => [1, 2, 3]
    zipOk := fun _ => true
    convert := id }

/-- The fresh on-disk state before any run. -/
def emptyOrchState : OrchState := ⟨[], [], 0, 0⟩

/-! ## Helper lemmas -/

theorem lookup_val_mem {α β : Type _} [BEq α] (a : α) (b : β) :
    ∀ (l : List (α × β)), List.lookup a l = some b → b ∈ l.map Prod.snd := by
  intro l
  induction l with
  | nil => intro h; simp [List.lookup] at h
  | cons p ps ih =>
    intro h
    obtain ⟨k, v⟩ := p
    rw [List.lookup] at h
    cases hak : (a == k) with
    | true => rw [hak] at h; simp only [Option.some.injEq] at h; subst h; simp
    | false => rw [hak] at h; exact List.mem_cons_of_mem _ (ih h)

theorem COLS_lookup_ne_nil {base : String} {t : List String}
    (h : List.lookup base COLS = some t) : t ≠ [] := by
  have hm := lookup_val_mem base t COLS h
  simp only [COLS, List.map_cons, List.map_nil, List.mem_cons, List.not_mem_nil,
    or_false] at hm
  rcases hm with h1 | h1 | h1 | h1 | h1 | h1 | h1 | h1 | h1 | h1 <;> subst h1 <;> decide

theorem choose_fixed {base : String} {t : List String} {n : Nat} (hp : Bool)
    (h : List.lookup base COLS = some t) (hlen : t.length = n) :
    choose_column_names base n hp = some t := by
  unfold choose_column_names
  rw [h]
  simp only [Option.getD_some]
  rw [if_pos ⟨COLS_lookup_ne_nil h, hlen⟩]

theorem choose_no_fixed {base : String} {n : Nat}
    (h : ∀ u, List.lookup base COLS = some u → u.length ≠ n) (hp : Bool) :
    choose_column_names base n hp = if hp then none else some (auto_names n) := by
  unfold choose_column_names
  cases hl : List.lookup base COLS with
  | none => simp
  | some u =>
    simp only [Option.getD_some]
    rw [if_neg]
    rintro ⟨-, hlen⟩
    exact h u hl hlen

theorem padRow_self (r : List (List Char)) : padRow r.length r = r.map some := by
  simp [padRow]

/-! ## C1 -/

/-- C1 (confirmed): schema precedence in `csv_to_parquet` via
`choose_column_names`.  (a) When the detected DatasetKind has a fixed
column list in `COLS` whose length equals the observed column count, the
schema written to the Parquet file is exactly that fixed list, whatever
the header heuristic said; (b) when no fixed list matches and a header
was detected, the header's own names are used; (c) otherwise the
synthetic `col_00 …` names are used. -/
theorem schema_precedence (fname l0 : List Char) (rest : List (List Char)) :
    (∀ t, List.lookup (detect_base_from_filename fname) COLS = some t →
       t.length = (splitSemi l0).length →
       (csv_to_parquet fname l0 rest).colNames = t.map String.data) ∧
    ((∀ u, List.lookup (detect_base_from_filename fname) COLS = some u →
        u.length ≠ (splitSemi l0).length) →
      looks_like_header l0 = true →
      (csv_to_parquet fname l0 rest).colNames = splitSemi l0) ∧
    ((∀ u, List.lookup (detect_base_from_filename fname) COLS = some u →
        u.length ≠ (splitSemi l0).length) →
      looks_like_header l0 = false →
      (csv_to_parquet fname l0 rest).colNames =
        (auto_names (splitSemi l0).length).map String.data) := by
  refine ⟨?_, ?_, ?_⟩
  · intro t ht hlen
    simp only [csv_to_parquet, choose_fixed (looks_like_header l0) ht hlen]
  · intro hno hhp
    simp only [csv_to_parquet, choose_no_fixed hno, hhp]
    simp
  · intro hno hhp
    simp only [csv_to_parquet, choose_no_fixed hno, hhp]
    simp

/-- Witness for C1: a recognized 2-column dataset whose header row carries
different (uppercase) names still gets the fixed dictionary schema. -/
theorem schema_precedence_witness :
    (csv_to_parquet "Cnaes.zip.csv".data "CODIGO;DESCRICAO".data ["01;x".data]).colNames =
      (["codigo", "descricao"] : List String).map String.data :=
  (schema_precedence "Cnaes.zip.csv".data "CODIGO;DESCRICAO".data ["01;x".data]).1
    ["codigo", "descricao"] (by decide) (by decide)

/-! ## C2 -/

/-- C2 counterexample: a 5-column input whose only anomalous row has 4
fields.  The claim predicts `totalRows - 1 = 2` written rows and exactly
one warning; the code (pandas python engine, `on_bad_lines="warn"`) keeps
the short row NaN-padded, writing all 3 rows with zero warnings. -/
theorem malformed_row_cex :
    ¬ (((csv_to_parquet "dados.csv".data "1;2;3;4;5".data
            ["6;7;8;9;10".data, "1;2;3;4".data]).rows.length = 3 - 1) ∧
        (csv_to_parquet "dados.csv".data "1;2;3;4;5".data
            ["6;7;8;9;10".data, "1;2;3;4".data]).badLines = 1) := by
  decide

/-- C2 (corrected): conversion against an `n`-column layout never fails;
a row with more than `n` fields is skipped and counted as one warning,
while a row with at most `n` fields (including short rows) is kept,
padded with missing values.  Hence kept + warned = total, the warning
count is the number of over-long rows, and the kept rows are exactly the
padded rows of width ≤ n. -/
theorem malformed_row_handling (n : Nat) (rows : List (List (List Char))) :
    (read_csv_rows n rows).1.length + (read_csv_rows n rows).2 = rows.length ∧
    (read_csv_rows n rows).2 = (rows.filter (fun r => n < r.length)).length ∧
    (read_csv_rows n rows).1 = (rows.filter (fun r => r.length ≤ n)).map (padRow n) := by
  induction rows with
  | nil => exact ⟨rfl, rfl, rfl⟩
  | cons r rs ih =>
    obtain ⟨ih1, ih2, ih3⟩ := ih
    by_cases h : r.length ≤ n
    · have hnot : ¬ n < r.length := Nat.not_lt.mpr h
      refine ⟨?_, ?_, ?_⟩
      · simp only [read_csv_rows, if_pos h, List.length_cons]
        omega
      · simp only [read_csv_rows, if_pos h, List.filter_cons]
        rw [if_neg (by simpa using hnot)]
        exact ih2
      · simp only [read_csv_rows, if_pos h, List.filter_cons]
        rw [if_pos (by simpa using h), List.map_cons, ih3]
    · have hlt : n < r.length := Nat.not_le.mp h
      refine ⟨?_, ?_, ?_⟩
      · simp only [read_csv_rows, if_neg h]
        simp only [List.length_cons]
        omega
      · simp only [read_csv_rows, if_neg h, List.filter_cons]
        rw [if_pos (by simpa using hlt), List.length_cons, ih2]
      · simp only [read_csv_rows, if_neg h, List.filter_cons]
        rw [if_neg (by simpa using h)]
        exact ih3

/-! ## C9 -/

/-- C9 (confirmed): whenever `choose_column_names` decides a name vector
(`some`, i.e. the fixed dictionary or the synthetic fallback), the
definitive read uses `header=None`, so the file's first line — even one
the heuristic classified as a header — is parsed as an ordinary data row
and becomes the first record written to the Parquet artifact. -/
theorem header_reparsed_as_data (fname l0 : List Char) (rest : List (List Char))
    (nms : List String)
    (hdec : choose_column_names (detect_base_from_filename fname) (splitSemi l0).length
      (looks_like_header l0) = some nms) :
    (csv_to_parquet fname l0 rest).rows.head? = some ((splitSemi l0).map some) := by
  simp only [csv_to_parquet, hdec, List.map_cons, read_csv_rows, le_refl, if_pos,
    padRow_self, List.head?_cons]

/-- Witness for C9: a `cnaes` file whose first line "codigo;descricao" is
detected as a header, yet the dictionary schema applies and that line is
written as a data record. -/
theorem header_reparsed_as_data_witness :
    (csv_to_parquet "cnaes.csv".data "codigo;descricao".data ["01;teste".data]).rows.head? =
      some ((splitSemi "codigo;descricao".data).map some) :=
  header_reparsed_as_data "cnaes.csv".data "codigo;descricao".data ["01;teste".data]
    ["codigo", "descricao"] (by decide)

/-! ## C3 -/

/-- C3 (confirmed): against a range-honoring server, a fetch interrupted
after any proper prefix of `k` bytes and then resumed produces a
destination file byte-identical to an uninterrupted fetch: the resumed
request asks for bytes from offset `k` and the received body is appended
to the partial file. -/
theorem resume_correctness (stream : List Nat) (k : Nat) (server : Option Nat → List Nat)
    (hs : honorsRange server stream) (hk : k < stream.length) :
    download_file (stream.take k) server = download_file [] server := by
  obtain ⟨h0, hr⟩ := hs
  rcases Nat.eq_zero_or_pos k with hk0 | hk0
  · subst hk0; rfl
  · have hlen : (stream.take k).length = k := by
      rw [List.length_take]; omega
    have hrhs : download_file [] server = stream := by
      simp [download_file, h0]
    rw [hrhs]
    simp only [download_file, hlen, if_pos hk0, hr k, List.take_append_drop]

/-- Witness for C3 at the stream `[2,3,5,7]` interrupted after 2 bytes. -/
theorem resume_correctness_witness :
    download_file ([2, 3, 5, 7].take 2) (fun r => [2, 3, 5, 7].drop (r.getD 0)) =
      download_file [] (fun r => [2, 3, 5, 7].drop (r.getD 0)) :=
  resume_correctness [2, 3, 5, 7] 2 _ ⟨rfl, fun _ => rfl⟩ (by decide)

/-! ## C10 -/

/-- C10 (confirmed): with a non-empty partial file of `k` bytes, the
fetcher queries the server with `Range: bytes=k-` and appends whatever
body comes back, never inspecting the status for range support; for a
server that ignores the range and replies with the full `N`-byte stream
(a 200 response), the completed file is the `k` partial bytes followed by
the whole stream, of length `k + N` — not a clean re-fetch. -/
theorem range_blind_append (partContent stream : List Nat) (hp : 0 < partContent.length) :
    (∀ server : Option Nat → List Nat,
       download_file partContent server = partContent ++ server (some partContent.length)) ∧
    download_file partContent (fun _ => stream) = partContent ++ stream ∧
    (download_file partContent (fun _ => stream)).length =
      partContent.length + stream.length := by
  refine ⟨fun server => ?_, ?_, ?_⟩ <;>
    simp [download_file, if_pos hp]

/-- Witness for C10: 2 partial bytes plus a full 3-byte body yield a
5-byte file that is not the 3-byte stream. -/
theorem range_blind_append_witness :
    download_file [9, 9] (fun _ => [1, 2, 3]) = [9, 9, 1, 2, 3] ∧
    (download_file [9, 9] (fun _ => [1, 2, 3])).length = 2 + 3 :=
  ⟨(range_blind_append [9, 9] [1, 2, 3] (by decide)).2.1,
   (range_blind_append [9, 9] [1, 2, 3] (by decide)).2.2⟩

/-! ## C5 -/

theorem utf8Valid_cons_ascii (b : Nat) (h : b < 0x80) (l : List Nat) :
    utf8ValidBytes (b :: l) = utf8ValidBytes l := by
  unfold utf8ValidBytes
  rw [utf8Run.eq_def]
  simp [h]

theorem utf8Valid_append_replicate97 (n : Nat) (l : List Nat) :
    utf8ValidBytes (List.replicate n 97 ++ l) = utf8ValidBytes l := by
  induction n with
  | zero => rfl
  | succ k ih =>
    rw [List.replicate_succ, List.cons_append, utf8Valid_cons_ascii 97 (by omega), ih]

theorem utf8Decode_cons_ascii (b : Nat) (h : b < 0x80) (l : List Nat) :
    utf8DecodeBytes (b :: l) = (utf8DecodeBytes l).map (b :: ·) := by
  unfold utf8DecodeBytes
  rw [utf8DecodeRun.eq_def]
  simp [h]

theorem utf8Decode_cons_two (b b2 : Nat) (h1 : 0xC2 ≤ b) (h2 : b ≤ 0xDF)
    (h3 : 0x80 ≤ b2) (h4 : b2 ≤ 0xBF) (l : List Nat) :
    utf8DecodeBytes (b :: b2 :: l) =
      (utf8DecodeBytes l).map (((b - 0xC0) * 0x40 + (b2 - 0x80)) :: ·) := by
  unfold utf8DecodeBytes
  rw [utf8DecodeRun.eq_def]
  have hn1 : ¬ b < 0x80 := by omega
  have hn2 : ¬ b < 0xC2 := by omega
  simp only [hn1, hn2, h2, if_false, if_true, if_neg, if_pos]
  rw [utf8DecodeRun.eq_def]
  simp [h3, h4]

theorem utf8Decode_latin1 : ∀ bs : List Nat, (∀ v ∈ bs, v < 0x100) →
    utf8DecodeBytes (latin1ToUtf8 bs) = some bs := by
  intro bs
  induction bs with
  | nil => intro _; rfl
  | cons v vs ih =>
    intro h
    have hv : v < 0x100 := h v (by simp)
    have hrest := ih (fun x hx => h x (by simp [hx]))
    simp only [latin1ToUtf8]
    by_cases hlt : v < 0x80
    · rw [if_pos hlt, List.singleton_append, utf8Decode_cons_ascii v hlt, hrest]
      rfl
    · rw [if_neg hlt]
      show utf8DecodeBytes ((0xC0 + v / 0x40) :: (0x80 + v % 0x40) :: latin1ToUtf8 vs) = _
      rw [utf8Decode_cons_two (0xC0 + v / 0x40) (0x80 + v % 0x40)
        (by omega) (by omega) (by omega) (by omega), hrest]
      have harith : (0xC0 + v / 0x40 - 0xC0) * 0x40 + (0x80 + v % 0x40 - 0x80) = v := by
        omega
      rw [harith]
      rfl

/-- C5 (corrected): `ensure_utf8` decides from the 1 MB sample alone.
When the sample is valid UTF-8 the original path is returned unchanged
and no new file is created; when it is not, a latin1 → UTF-8 transcoded
file is produced whose bytes decode (as UTF-8) to exactly the original
file's latin1 characters, i.e. the codepoint-per-byte content. -/
theorem round_trip_normalization (content : List Nat) (hbytes : ∀ v ∈ content, v < 0x100) :
    (utf8ValidBytes (content.take 1000000) = true → ensure_utf8 content = .original) ∧
    (utf8ValidBytes (content.take 1000000) = false →
      ensure_utf8 content = .transcoded (latin1ToUtf8 content) ∧
      utf8DecodeBytes (latin1ToUtf8 content) = some content) := by
  constructor
  · intro hvalid
    simp [ensure_utf8, hvalid]
  · intro hvalid
    exact ⟨by simp [ensure_utf8, hvalid], utf8Decode_latin1 content hbytes⟩

/-- Witness for C5: a pure-ASCII file is returned unchanged; the latin1
byte 0xE9 (é) fails the UTF-8 sample test and is transcoded to the UTF-8
pair C3 A9, which decodes back to codepoint 0xE9. -/
theorem round_trip_normalization_witness :
    ensure_utf8 [65] = .original ∧
    ensure_utf8 [0xE9] = .transcoded [0xC3, 0xA9] ∧
    utf8DecodeBytes [0xC3, 0xA9] = some [0xE9] :=
  ⟨(round_trip_normalization [65] (by decide)).1 (by decide),
   ((round_trip_normalization [0xE9] (by decide)).2 (by decide)).1,
   ((round_trip_normalization [0xE9] (by decide)).2 (by decide)).2⟩

/-- C5 counterexample: a file of 1 000 001 bytes that is entirely valid
UTF-8 (999 999 ASCII bytes followed by the two-byte sequence C3 A9), yet
is not returned unchanged: the 1 MB sample cuts the two-byte character in
half, the sample fails to decode, and the file is (wrongly) transcoded. -/
theorem round_trip_normalization_cex :
    utf8ValidBytes (List.replicate 999999 97 ++ [0xC3, 0xA9]) = true ∧
    ensure_utf8 (List.replicate 999999 97 ++ [0xC3, 0xA9]) ≠ .original := by
  constructor
  · rw [utf8Valid_append_replicate97]
    decide
  · have hsample : (List.replicate 999999 97 ++ [0xC3, 0xA9]).take 1000000
        = List.replicate 999999 (97 : Nat) ++ [0xC3] := by
      rw [List.take_append_eq_append_take, List.length_replicate,
        List.take_of_length_le (by rw [List.length_replicate]; omega)]
      have h1 : (1000000 - 999999 : Nat) = 1 := by norm_num
      have h2 : List.take 1 ([0xC3, 0xA9] : List Nat) = [0xC3] := rfl
      rw [h1, h2]
    intro hcontra
    unfold ensure_utf8 at hcontra
    rw [hsample, utf8Valid_append_replicate97,
      show utf8ValidBytes [0xC3] = false by decide] at hcontra
    rw [if_neg Bool.false_ne_true] at hcontra
    exact NormResult.noConfusion hcontra

/-! ## C6 -/

theorem head?_filter {α : Type _} (p : α → Bool) (l : List α) :
    (l.filter p).head? = l.find? p := by
  induction l with
  | nil => rfl
  | cons a as ih =>
    by_cases h : p a
    · rw [List.filter_cons, if_pos h, List.find?_cons_of_pos _ h]
      rfl
    · rw [List.filter_cons, if_neg (by simpa using h),
        List.find?_cons_of_neg _ (by simpa using h)]
      exact ih

theorem pythonMax_mem : ∀ (l : List ZipEntry) (e : ZipEntry), pythonMax e l ∈ e :: l := by
  intro l
  induction l with
  | nil => intro e; simp [pythonMax]
  | cons b bs ih =>
    intro e
    have hstep : pythonMax e (b :: bs) = pythonMax (if e.fsize < b.fsize then b else e) bs := rfl
    rw [hstep]
    rcases List.mem_cons.mp (ih (if e.fsize < b.fsize then b else e)) with h1 | h1
    · rw [h1]
      by_cases hc : e.fsize < b.fsize
      · rw [if_pos hc]
        exact List.mem_cons_of_mem _ (List.mem_cons_self _ _)
      · rw [if_neg hc]
        exact List.mem_cons_self _ _
    · exact List.mem_cons_of_mem _ (List.mem_cons_of_mem _ h1)

theorem pythonMax_ge : ∀ (l : List ZipEntry) (e x : ZipEntry),
    x ∈ e :: l → x.fsize ≤ (pythonMax e l).fsize := by
  intro l
  induction l with
  | nil =>
    intro e x hx
    rcases List.mem_cons.mp hx with h1 | h1
    · rw [h1]; exact Nat.le_refl _
    · exact absurd h1 (List.not_mem_nil x)
  | cons b bs ih =>
    intro e x hx
    have hstep : pythonMax e (b :: bs) = pythonMax (if e.fsize < b.fsize then b else e) bs := rfl
    rw [hstep]
    have hself := ih (if e.fsize < b.fsize then b else e) (if e.fsize < b.fsize then b else e)
      (List.mem_cons_self _ _)
    have he : e.fsize ≤ (if e.fsize < b.fsize then b else e).fsize := by
      by_cases hc : e.fsize < b.fsize
      · rw [if_pos hc]; exact Nat.le_of_lt hc
      · rw [if_neg hc]
    have hb : b.fsize ≤ (if e.fsize < b.fsize then b else e).fsize := by
      by_cases hc : e.fsize < b.fsize
      · rw [if_pos hc]
      · rw [if_neg hc]; exact Nat.not_lt.mp hc
    rcases List.mem_cons.mp hx with h1 | h1
    · rw [h1]; exact he.trans hself
    · rcases List.mem_cons.mp h1 with h2 | h2
      · rw [h2]; exact hb.trans hself
      · exact ih _ x (List.mem_cons_of_mem _ h2)

theorem pythonMax_first : ∀ (l : List ZipEntry) (e : ZipEntry),
    (e :: l).find? (fun x => decide ((pythonMax e l).fsize ≤ x.fsize)) =
      some (pythonMax e l) := by
  intro l
  induction l with
  | nil =>
    intro e
    rw [List.find?_cons_of_pos _ (by simp [pythonMax])]
    rfl
  | cons b bs ih =>
    intro e
    have hstep : pythonMax e (b :: bs) = pythonMax (if e.fsize < b.fsize then b else e) bs := rfl
    rw [hstep]
    by_cases hc : e.fsize < b.fsize
    · rw [if_pos hc]
      have hbm : b.fsize ≤ (pythonMax b bs).fsize :=
        pythonMax_ge bs b b (List.mem_cons_self _ _)
      have hne : ¬ ((pythonMax b bs).fsize ≤ e.fsize) := by omega
      rw [List.find?_cons_of_neg _ (by simpa using hne)]
      exact ih b
    · rw [if_neg hc]
      have hbe : b.fsize ≤ e.fsize := Nat.not_lt.mp hc
      have ihe := ih e
      by_cases hpe : (pythonMax e bs).fsize ≤ e.fsize
      · rw [List.find?_cons_of_pos _ (by simpa using hpe)] at ihe
        rw [List.find?_cons_of_pos _ (by simpa using hpe)]
        exact ihe
      · have hpb : ¬ ((pythonMax e bs).fsize ≤ b.fsize) := by omega
        rw [List.find?_cons_of_neg _ (by simpa using hpe)] at ihe
        rw [List.find?_cons_of_neg _ (by simpa using hpe),
          List.find?_cons_of_neg _ (by simpa using hpb)]
        exact ihe

theorem startsWithL_self_append (p r : List Char) : startsWithL p (p ++ r) = true := by
  induction p with
  | nil => rfl
  | cons c cs ih => simp [startsWithL, ih]

theorem endsWithL_append_self (x pat : List Char) : endsWithL pat (x ++ pat) = true := by
  unfold endsWithL
  rw [List.reverse_append]
  exact startsWithL_self_append _ _

theorem out_name_ends_csv (member : List Char) :
    endsWithL ".csv".data (lowerL (out_name member)) = true := by
  unfold out_name
  by_cases h : endsWithL ".csv".data (lowerL (basenameOf member)) = true
  · rw [if_pos h]
    exact h
  · rw [if_neg h]
    unfold lowerL
    rw [List.map_append,
      show List.map lowerChar ".csv".data = ".csv".data from by decide]
    exact endsWithL_append_self _ _

/-- C6 (confirmed): for every archive with at least one member, exactly
one member is selected — the first member, in the archive's internal
listing order, of the first non-empty candidate class among (1) names
ending in a csv/txt suffix, (2) names containing "csv" case-insensitively,
(3) the largest member by uncompressed size (ties broken by earliest
listing position: the chosen member is maximal and is the first member of
maximal size) — and the extracted file's name always ends in `.csv`
case-insensitively. -/
theorem member_selection (n0 : ZipEntry) (ns : List ZipEntry) :
    ∃ m, unzip_single_csv (n0 :: ns) = some m ∧ m ∈ n0 :: ns ∧
      (∀ m1, (n0 :: ns).find? (fun e => endsCsvTxt e.name) = some m1 → m = m1) ∧
      ((n0 :: ns).find? (fun e => endsCsvTxt e.name) = none →
        ∀ m2, (n0 :: ns).find? (fun e => containsCsvTok e.name) = some m2 → m = m2) ∧
      ((n0 :: ns).find? (fun e => endsCsvTxt e.name) = none →
        (n0 :: ns).find? (fun e => containsCsvTok e.name) = none →
        (∀ x ∈ n0 :: ns, x.fsize ≤ m.fsize) ∧
          (n0 :: ns).find? (fun x => decide (m.fsize ≤ x.fsize)) = some m) ∧
      endsWithL ".csv".data (lowerL (out_name m.name)) = true := by
  simp only [unzip_single_csv]
  have hf1 : (n0 :: ns).find? (fun e => endsCsvTxt e.name) =
      ((n0 :: ns).filter (fun e => endsCsvTxt e.name)).head? := (head?_filter _ _).symm
  have hf2 : (n0 :: ns).find? (fun e => containsCsvTok e.name) =
      ((n0 :: ns).filter (fun e => containsCsvTok e.name)).head? := (head?_filter _ _).symm
  by_cases h1 : (n0 :: ns).filter (fun m => endsCsvTxt m.name) = []
  · by_cases h2 : (n0 :: ns).filter (fun m => containsCsvTok m.name) = []
    · refine ⟨pythonMax n0 ns, ?_, pythonMax_mem ns n0, ?_, ?_, ?_,
        out_name_ends_csv _⟩
      · rw [if_pos h1, if_pos h2]
        rfl
      · intro m1 hm1
        rw [hf1, h1] at hm1
        exact absurd hm1 (by simp)
      · intro _ m2 hm2
        rw [hf2, h2] at hm2
        exact absurd hm2 (by simp)
      · intro _ _
        exact ⟨fun x hx => pythonMax_ge ns n0 x hx, pythonMax_first ns n0⟩
    · obtain ⟨a, as, ha⟩ := List.exists_cons_of_ne_nil h2
      refine ⟨a, ?_, ?_, ?_, ?_, ?_, out_name_ends_csv _⟩
      · rw [if_pos h1, if_neg h2, ha]
        rfl
      · exact List.mem_of_mem_filter (ha ▸ List.mem_cons_self a as)
      · intro m1 hm1
        rw [hf1, h1] at hm1
        exact absurd hm1 (by simp)
      · intro _ m2 hm2
        rw [hf2, ha] at hm2
        simp only [List.head?_cons, Option.some.injEq] at hm2
        exact hm2
      · intro _ hcontra
        rw [hf2, ha] at hcontra
        exact absurd hcontra (by simp)
  · obtain ⟨a, as, ha⟩ := List.exists_cons_of_ne_nil h1
    have hne2 : a :: as ≠ [] := by simp
    refine ⟨a, ?_, ?_, ?_, ?_, ?_, out_name_ends_csv _⟩
    · rw [if_neg h1, if_neg h1, ha]
      rfl
    · exact List.mem_of_mem_filter (ha ▸ List.mem_cons_self a as)
    · intro m1 hm1
      rw [hf1, ha] at hm1
      simp only [List.head?_cons, Option.some.injEq] at hm1
      exact hm1
    · intro hcontra _ _
      rw [hf1, ha] at hcontra
      exact absurd hcontra (by simp)
    · intro hcontra _
      rw [hf1, ha] at hcontra
      exact absurd hcontra (by simp)

/-- Witness for C6: among a non-tabular first member and a `.TXT` member,
the `.TXT` member (first of candidate class 1) is selected, and its
extracted name gains the `.csv` extension. -/
theorem member_selection_witness :
    unzip_single_csv [⟨"leiame.pdf".data, 10⟩, ⟨"F.K032.DADOS.TXT".data, 5⟩] =
      some ⟨"F.K032.DADOS.TXT".data, 5⟩ ∧
    endsWithL ".csv".data
      (lowerL (out_name "F.K032.DADOS.TXT".data)) = true := by
  obtain ⟨m, hsel, -, hfirst, -, -, hext⟩ :=
    member_selection ⟨"leiame.pdf".data, 10⟩ [⟨"F.K032.DADOS.TXT".data, 5⟩]
  have hm : m = ⟨"F.K032.DADOS.TXT".data, 5⟩ := hfirst _ (by decide)
  rw [hsel, hm]
  exact ⟨rfl, out_name_ends_csv _⟩

/-! ## C7 -/

theorem lexLt_asymm : ∀ a b, lexLt a b = true → lexLt b a = false := by
  intro a
  induction a with
  | nil =>
    intro b h
    cases b with
    | nil => simp [lexLt] at h
    | cons y ys => simp [lexLt]
  | cons x xs ih =>
    intro b h
    cases b with
    | nil => simp [lexLt] at h
    | cons y ys =>
      simp only [lexLt, Bool.or_eq_true, Bool.and_eq_true, decide_eq_true_eq] at h
      rcases h with hlt | ⟨heq, hrec⟩
      · have h1 : ¬ (y < x) := lt_asymm hlt
        have h2 : y ≠ x := ne_of_gt hlt
        simp [lexLt, h1, h2]
      · subst heq
        have h1 : ¬ (x < x) := lt_irrefl x
        simp [lexLt, h1, ih ys hrec]

theorem lexLt_trans : ∀ a b c, lexLt a b = true → lexLt b c = true → lexLt a c = true := by
  intro a
  induction a with
  | nil =>
    intro b c hab hbc
    cases c with
    | nil => cases b <;> simp [lexLt] at hab hbc
    | cons z zs => simp [lexLt]
  | cons x xs ih =>
    intro b c hab hbc
    cases b with
    | nil => simp [lexLt] at hab
    | cons y ys =>
      cases c with
      | nil => simp [lexLt] at hbc
      | cons z zs =>
        simp only [lexLt, Bool.or_eq_true, Bool.and_eq_true, decide_eq_true_eq] at hab hbc ⊢
        rcases hab with h1 | ⟨he1, hr1⟩
        · rcases hbc with h2 | ⟨he2, hr2⟩
          · exact Or.inl (lt_trans h1 h2)
          · subst he2
            exact Or.inl h1
        · subst he1
          rcases hbc with h2 | ⟨he2, hr2⟩
          · exact Or.inl h2
          · subst he2
            exact Or.inr ⟨rfl, ih ys zs hr1 hr2⟩

theorem lexLt_connex : ∀ a b, a ≠ b → lexLt a b = true ∨ lexLt b a = true := by
  intro a
  induction a with
  | nil =>
    intro b hne
    cases b with
    | nil => exact absurd rfl hne
    | cons y ys => left; simp [lexLt]
  | cons x xs ih =>
    intro b hne
    cases b with
    | nil => right; simp [lexLt]
    | cons y ys =>
      by_cases hxy : x = y
      · subst hxy
        have hne2 : xs ≠ ys := fun h => hne (by rw [h])
        rcases ih ys hne2 with h | h
        · left; simp [lexLt, h]
        · right; simp [lexLt, h]
      · rcases lt_or_gt_of_ne hxy with h | h
        · left; simp [lexLt, h]
        · right; simp [lexLt, h]

theorem lexLe_total (a b : List Char) : lexLe a b = true ∨ lexLe b a = true := by
  unfold lexLe
  cases hb : lexLt b a with
  | false => left; rfl
  | true => right; simp [lexLt_asymm b a hb]

theorem lexLe_trans (a b c : List Char) (h1 : lexLe a b = true) (h2 : lexLe b c = true) :
    lexLe a c = true := by
  unfold lexLe at h1 h2 ⊢
  simp only [Bool.not_eq_true'] at h1 h2 ⊢
  by_contra hcon
  simp only [Bool.not_eq_false] at hcon
  rcases eq_or_ne a b with he | hne
  · subst he
    rw [hcon] at h2
    exact Bool.noConfusion h2
  · rcases lexLt_connex a b hne with h | h
    · have := lexLt_trans c a b hcon h
      rw [this] at h2
      exact Bool.noConfusion h2
    · rw [h] at h1
      exact Bool.noConfusion h1

theorem mem_insertSorted (a x : List Char) :
    ∀ l, x ∈ insertSorted a l ↔ x = a ∨ x ∈ l := by
  intro l
  induction l with
  | nil => simp [insertSorted]
  | cons b bs ih =>
    by_cases h : lexLe a b = true
    · simp [insertSorted, h]
    · simp only [insertSorted, if_neg h, List.mem_cons, ih]
      tauto

theorem sorted_insertSorted (a : List Char) :
    ∀ l, l.Sorted (fun p q => lexLe p q = true) →
      (insertSorted a l).Sorted (fun p q => lexLe p q = true) := by
  intro l
  induction l with
  | nil => intro _; simp [insertSorted]
  | cons b bs ih =>
    intro hs
    rw [List.sorted_cons] at hs
    obtain ⟨hball, hbs⟩ := hs
    by_cases h : lexLe a b = true
    · rw [insertSorted, if_pos h, List.sorted_cons]
      refine ⟨?_, ?_⟩
      · intro x hx
        rcases List.mem_cons.mp hx with h1 | h1
        · rw [h1]; exact h
        · exact lexLe_trans a b x h (hball x h1)
      · rw [List.sorted_cons]
        exact ⟨hball, hbs⟩
    · rw [insertSorted, if_neg h, List.sorted_cons]
      have hba : lexLe b a = true := by
        rcases lexLe_total a b with ht | ht
        · exact absurd ht h
        · exact ht
      refine ⟨?_, ih hbs⟩
      intro x hx
      rcases (mem_insertSorted a x bs).mp hx with h1 | h1
      · rw [h1]; exact hba
      · exact hball x h1

theorem perm_insertSorted (a : List Char) : ∀ l, (insertSorted a l).Perm (a :: l) := by
  intro l
  induction l with
  | nil => exact List.Perm.refl _
  | cons b bs ih =>
    by_cases h : lexLe a b = true
    · rw [insertSorted, if_pos h]
    · rw [insertSorted, if_neg h]
      exact (ih.cons b).trans (List.Perm.swap a b bs)

theorem perm_sortStrings (l : List (List Char)) : (sortStrings l).Perm l := by
  induction l with
  | nil => exact List.Perm.refl _
  | cons a as ih =>
    exact (perm_insertSorted a (sortStrings as)).trans (ih.cons a)

theorem sortStrings_sorted (l : List (List Char)) :
    (sortStrings l).Sorted (fun p q => lexLe p q = true) := by
  induction l with
  | nil => simp [sortStrings]
  | cons a as ih => exact sorted_insertSorted a _ ih

/-- C7 (confirmed): `list_zip_links` fails exactly when the listing fetch
fails or no `.zip` reference occurs in the body; on success it returns a
duplicate-free, lexicographically sorted list containing exactly the
base-resolved references found in the body. -/
theorem index_resolution (join : List Char → List Char) (fetched : Option (List Char)) :
    ((∃ e, list_zip_links join fetched = .error e) ↔
      fetched = none ∨ hrefScan (fetched.getD []) = []) ∧
    (∀ zips, list_zip_links join fetched = .ok zips →
      zips.Nodup ∧ zips.Sorted (fun p q => lexLe p q = true) ∧
        ∀ u, u ∈ zips ↔ u ∈ (hrefScan (fetched.getD [])).map join) := by
  cases fetched with
  | none =>
    refine ⟨⟨fun _ => Or.inl rfl, fun _ => ⟨"network error", rfl⟩⟩, ?_⟩
    intro zips h
    exact Except.noConfusion h
  | some body =>
    simp only [list_zip_links, Option.getD_some]
    by_cases hz : sortStrings ((hrefScan body).map join).dedup = []
    · rw [if_pos hz]
      refine ⟨⟨fun _ => ?_, fun _ => ⟨_, rfl⟩⟩, ?_⟩
      · right
        have hperm := perm_sortStrings ((hrefScan body).map join).dedup
        rw [hz] at hperm
        have h1 : ((hrefScan body).map join).dedup = [] := hperm.symm.eq_nil
        rw [List.dedup_eq_nil, List.map_eq_nil_iff] at h1
        exact h1
      · intro zips h
        exact Except.noConfusion h
    · rw [if_neg hz]
      refine ⟨⟨fun he => ?_, fun hcase => ?_⟩, ?_⟩
      · obtain ⟨e, he⟩ := he
        exact Except.noConfusion he
      · rcases hcase with h | h
        · exact Option.noConfusion h
        · exfalso
          apply hz
          rw [h]
          rfl
      · intro zips h
        injection h with h
        subst h
        refine ⟨?_, sortStrings_sorted _, ?_⟩
        · exact (perm_sortStrings _).symm.nodup (List.nodup_dedup _)
        · intro u
          rw [(perm_sortStrings _).mem_iff, List.mem_dedup]

/-- Witness for C7: a listing body with a duplicated `b.zip` link and an
uppercase `HREF` link resolves to the sorted duplicate-free pair. -/
theorem index_resolution_witness :
    list_zip_links id
      (some "<a href=\"b.zip\">x</a><a HREF=\"a.zip\">y</a><a href=\"b.zip\">".data) =
      .ok ["a.zip".data, "b.zip".data] ∧
    (["a.zip".data, "b.zip".data] : List (List Char)).Nodup ∧
    List.Sorted (fun p q => lexLe p q = true) ["a.zip".data, "b.zip".data] := by
  have happ : list_zip_links id
      (some "<a href=\"b.zip\">x</a><a HREF=\"a.zip\">y</a><a href=\"b.zip\">".data) =
      .ok ["a.zip".data, "b.zip".data] := by rfl
  obtain ⟨-, hok⟩ := index_resolution id
    (some "<a href=\"b.zip\">x</a><a HREF=\"a.zip\">y</a><a href=\"b.zip\">".data)
  obtain ⟨hnd, hsort, -⟩ := hok _ happ
  exact ⟨happ, hnd, hsort⟩

/-! ## C4 -/

theorem lookup_cons_isSome {α β : Type _} [BEq α] {s k : α} {v : β} {l : List (α × β)}
    (h : (List.lookup s l).isSome = true) :
    (List.lookup s ((k, v) :: l)).isSome = true := by
  rw [List.lookup]
  cases hsk : s == k
  · exact h
  · rfl

theorem lookup_self_cons {α β : Type _} [BEq α] [LawfulBEq α] (k : α) (v : β)
    (l : List (α × β)) : (List.lookup k ((k, v) :: l)).isSome = true := by
  rw [List.lookup, beq_self_eq_true]
  rfl

theorem process_preserves_artifact (env : PipeEnv) (st : OrchState) (url s : List Char)
    (h : (List.lookup s st.artifacts).isSome = true) :
    (List.lookup s (process_one_zip env st url).artifacts).isSome = true := by
  unfold process_one_zip
  by_cases hskip : (List.lookup (stemOf (zipNameOf url)) st.artifacts).isSome = true
  · rw [if_pos hskip]
    exact h
  · rw [if_neg hskip]
    exact lookup_cons_isSome h

theorem foldl_preserves_artifact (env : PipeEnv) (urls : List (List Char)) :
    ∀ (st : OrchState) (s : List Char), (List.lookup s st.artifacts).isSome = true →
      (List.lookup s ((urls.foldl (process_one_zip env) st)).artifacts).isSome = true := by
  induction urls with
  | nil => intro st s h; exact h
  | cons u us ih =>
    intro st s h
    exact ih _ s (process_preserves_artifact env st u s h)

theorem process_establishes (env : PipeEnv) (st : OrchState) (url : List Char) :
    (List.lookup (stemOf (zipNameOf url)) (process_one_zip env st url).artifacts).isSome
      = true := by
  unfold process_one_zip
  by_cases hskip : (List.lookup (stemOf (zipNameOf url)) st.artifacts).isSome = true
  · rw [if_pos hskip]
    exact hskip
  · rw [if_neg hskip]
    exact lookup_self_cons _ _ _

theorem foldl_establishes (env : PipeEnv) (urls : List (List Char)) :
    ∀ (st : OrchState), ∀ u ∈ urls,
      (List.lookup (stemOf (zipNameOf u))
        ((urls.foldl (process_one_zip env) st)).artifacts).isSome = true := by
  induction urls with
  | nil => intro st u hu; exact absurd hu (List.not_mem_nil u)
  | cons v vs ih =>
    intro st u hu
    rcases List.mem_cons.mp hu with h | h
    · subst h
      exact foldl_preserves_artifact env vs _ _ (process_establishes env st u)
    · exact ih _ u h

theorem process_skip (env : PipeEnv) (st : OrchState) (url : List Char)
    (h : (List.lookup (stemOf (zipNameOf url)) st.artifacts).isSome = true) :
    process_one_zip env st url = st := by
  unfold process_one_zip
  rw [if_pos h]

theorem foldl_skip (env : PipeEnv) (urls : List (List Char)) :
    ∀ (st : OrchState),
      (∀ u ∈ urls, (List.lookup (stemOf (zipNameOf u)) st.artifacts).isSome = true) →
      urls.foldl (process_one_zip env) st = st := by
  induction urls with
  | nil => intro st _; rfl
  | cons v vs ih =>
    intro st h
    show vs.foldl (process_one_zip env) (process_one_zip env st v) = st
    rw [process_skip env st v (h v (List.mem_cons_self _ _))]
    exact ih st (fun u hu => h u (List.mem_cons_of_mem _ hu))

/-- C4 counterexample: after a complete first run, a second run still
performs network activity — the unconditional listing fetch — so its
total network-operation count is not equal to (i.e. grows beyond) the
first run's. -/
theorem idempotence_cex :
    ¬ ((run_pipeline demoPipeEnv (run_pipeline demoPipeEnv emptyOrchState)).listingFetches +
        (run_pipeline demoPipeEnv (run_pipeline demoPipeEnv emptyOrchState)).archiveDownloads =
       (run_pipeline demoPipeEnv emptyOrchState).listingFetches +
        (run_pipeline demoPipeEnv emptyOrchState).archiveDownloads) := by
  decide

/-- C4 (corrected): a second pipeline run over the same environment
leaves the artifacts (and kept zips) byte-identical and performs zero
archive downloads; its only network activity is the single listing
fetch.  Per archive, an already-existing target artifact short-circuits
`process_one_zip` before any download, extraction or conversion. -/
theorem idempotent_second_run (env : PipeEnv) (st : OrchState) :
    (run_pipeline env (run_pipeline env st)).artifacts = (run_pipeline env st).artifacts ∧
    (run_pipeline env (run_pipeline env st)).zips = (run_pipeline env st).zips ∧
    (run_pipeline env (run_pipeline env st)).archiveDownloads =
      (run_pipeline env st).archiveDownloads ∧
    (run_pipeline env (run_pipeline env st)).listingFetches =
      (run_pipeline env st).listingFetches + 1 ∧
    (∀ url, (List.lookup (stemOf (zipNameOf url)) st.artifacts).isSome = true →
      process_one_zip env st url = st) := by
  cases hlz : list_zip_links env.join env.listingBody with
  | error e =>
    have hrun : ∀ s : OrchState, run_pipeline env s =
        { s with listingFetches := s.listingFetches + 1 } := by
      intro s
      unfold run_pipeline
      rw [hlz]
    rw [hrun (run_pipeline env st), hrun st]
    exact ⟨rfl, rfl, rfl, rfl, fun url h => process_skip env st url h⟩
  | ok zips =>
    have hrun : ∀ s : OrchState, run_pipeline env s =
        zips.foldl (process_one_zip env)
          { s with listingFetches := s.listingFetches + 1 } := by
      intro s
      unfold run_pipeline
      rw [hlz]
    have hall : ∀ u ∈ zips,
        (List.lookup (stemOf (zipNameOf u)) (run_pipeline env st).artifacts).isSome
          = true := by
      intro u hu
      rw [hrun]
      exact foldl_establishes env zips _ u hu
    have hsecond : run_pipeline env (run_pipeline env st) =
        { run_pipeline env st with
            listingFetches := (run_pipeline env st).listingFetches + 1 } := by
      rw [hrun (run_pipeline env st)]
      exact foldl_skip env zips _ (fun u hu => hall u hu)
    rw [hsecond]
    exact ⟨rfl, rfl, rfl, rfl, fun url h => process_skip env st url h⟩

/-- Witness for C4: on the demonstration environment the second run keeps
artifacts and download count unchanged, and a state already holding the
artifact for `a.zip` is skipped untouched. -/
theorem idempotent_second_run_witness :
    (run_pipeline demoPipeEnv (run_pipeline demoPipeEnv emptyOrchState)).artifacts =
      (run_pipeline demoPipeEnv emptyOrchState).artifacts ∧
    (run_pipeline demoPipeEnv (run_pipeline demoPipeEnv emptyOrchState)).archiveDownloads =
      (run_pipeline demoPipeEnv emptyOrchState).archiveDownloads ∧
    process_one_zip demoPipeEnv ⟨[], [("a".data, [9])], 5, 7⟩ "a.zip".data =
      ⟨[], [("a".data, [9])], 5, 7⟩ :=
  ⟨(idempotent_second_run demoPipeEnv emptyOrchState).1,
   (idempotent_second_run demoPipeEnv emptyOrchState).2.2.1,
   (idempotent_second_run demoPipeEnv ⟨[], [("a".data, [9])], 5, 7⟩).2.2.2.2
     "a.zip".data (by decide)⟩

/-! ## C8 -/

/-- C8 counterexample: (a) the ingest converter's header branch writes
the header's names verbatim into the artifact — "Código" keeps its
capital letter and accent, so not every written name is canonical; (b)
the renaming script's numeric-suffix disambiguation can itself collide:
`["a", "a_2", "a"]` becomes `["a", "a_2", "a_2"]`, which has duplicates. -/
theorem name_normalization_cex :
    (∃ n, n ∈ (csv_to_parquet "dados.csv".data "Código;Ético".data []).colNames ∧
      ¬ n.all isCanonChar = true) ∧
    ¬ (auto_sql_headers ["a".data, "a_2".data, "a".data]).Nodup := by
  constructor
  · exact ⟨"Código".data, by decide, by decide⟩
  · decide

theorem collapseGo_canon : ∀ (l : List Char) (b : Bool),
    (collapseGo b l).all isCanonChar = true := by
  intro l
  induction l with
  | nil => intro b; rfl
  | cons c cs ih =>
    intro b
    by_cases hc : isLowerAlnum c = true
    · simp [collapseGo, hc, ih, isCanonChar]
    · by_cases hb : b
      · simp [collapseGo, hc, hb, ih]
      · simp [collapseGo, hc, hb, ih, isCanonChar]

theorem stripUnderscores_all {l : List Char} (h : l.all isCanonChar = true) :
    (stripUnderscores l).all isCanonChar = true := by
  unfold stripUnderscores
  rw [List.all_eq_true] at h ⊢
  intro x hx
  rw [List.mem_reverse] at hx
  have h1 := List.Sublist.mem hx (List.dropWhile_sublist _)
  rw [List.mem_reverse] at h1
  exact h x (List.Sublist.mem h1 (List.dropWhile_sublist _))

theorem to_sql_name_canon (raw : List Char) : (to_sql_name raw).all isCanonChar = true := by
  unfold to_sql_name collapseNonAlnum
  exact stripUnderscores_all (collapseGo_canon _ false)

theorem digitChar_canon (d : Nat) (h : d < 10) : isCanonChar (Nat.digitChar d) = true := by
  interval_cases d <;> decide

theorem toDigitsCore_canon : ∀ (fuel n : Nat) (ds : List Char),
    ds.all isCanonChar = true → (Nat.toDigitsCore 10 fuel n ds).all isCanonChar = true := by
  intro fuel
  induction fuel with
  | zero => intro n ds h; exact h
  | succ f ih =>
    intro n ds h
    have hd : (Nat.digitChar (n % 10) :: ds).all isCanonChar = true := by
      rw [List.all_cons, digitChar_canon (n % 10) (Nat.mod_lt _ (by omega)), h]
      rfl
    simp only [Nat.toDigitsCore]
    by_cases hz : n / 10 = 0
    · rw [if_pos hz]
      exact hd
    · rw [if_neg hz]
      exact ih (n / 10) _ hd

theorem string_append_data (s t : String) : (s ++ t).data = s.data ++ t.data := rfl

theorem repr_canon (n : Nat) : (Nat.repr n).data.all isCanonChar = true := by
  show (List.asString (Nat.toDigits 10 n)).data.all isCanonChar = true
  rw [show ∀ l : List Char, (List.asString l).data = l from fun _ => rfl]
  unfold Nat.toDigits
  exact toDigitsCore_canon _ _ _ rfl

theorem autoColName_canon (i : Nat) : (autoColName i).data.all isCanonChar = true := by
  unfold autoColName
  rw [string_append_data, List.all_append]
  have hcol : ("col_" : String).data.all isCanonChar = true := by decide
  rw [hcol]
  by_cases h : i < 10
  · rw [if_pos h, string_append_data, List.all_append, repr_canon]
    rfl
  · rw [if_neg h, repr_canon]
    rfl

theorem auto_sql_entry_canon (i : Nat) (c : List Char) :
    (auto_sql_entry i c).all isCanonChar = true := by
  unfold auto_sql_entry
  by_cases h : (to_sql_name c = [] || startsWithL "unnamed".data (to_sql_name c) ||
      isDigitsName (to_sql_name c)) = true
  · rw [if_pos h]
    exact autoColName_canon i
  · rw [if_neg h]
    exact to_sql_name_canon c

theorem uniqueGo_canon : ∀ (names : List (List Char)) (seen : List (List Char × Nat)),
    (∀ m ∈ names, m.all isCanonChar = true) →
    ∀ n ∈ uniqueGo seen names, n ≠ [] ∧ n.all isCanonChar = true := by
  intro names
  induction names with
  | nil => intro seen _ n hn; exact absurd hn (List.not_mem_nil n)
  | cons n0 ns ih =>
    intro seen hall n hn
    have hcanon0 : (if n0 = [] then "col".data else n0).all isCanonChar = true := by
      by_cases h : n0 = []
      · rw [if_pos h]; decide
      · rw [if_neg h]; exact hall n0 (List.mem_cons_self _ _)
    have hne0 : (if n0 = [] then "col".data else n0) ≠ [] := by
      by_cases h : n0 = []
      · rw [if_pos h]; decide
      · rw [if_neg h]; exact h
    simp only [uniqueGo] at hn
    cases hl : List.lookup (if n0 = [] then "col".data else n0) seen with
    | none =>
      rw [hl] at hn
      rcases List.mem_cons.mp hn with h | h
      · subst h; exact ⟨hne0, hcanon0⟩
      · exact ih _ (fun m hm => hall m (List.mem_cons_of_mem _ hm)) n h
    | some k =>
      rw [hl] at hn
      rcases List.mem_cons.mp hn with h | h
      · subst h
        refine ⟨by simp, ?_⟩
        rw [List.all_append, hcanon0, List.all_cons, repr_canon]
        rfl
      · exact ih _ (fun m hm => hall m (List.mem_cons_of_mem _ hm)) n h

/-- C8 (corrected): the canonical-form guarantee belongs to the separate
renaming script, and holds there name-by-name: every name produced by
`auto_sql_headers` is a non-empty string of lowercase alphanumerics and
underscores.  The duplicate-freedom part of the claim fails (see the
counterexample), as does canonicality for the ingest converter's header
branch, which copies header names verbatim. -/
theorem name_normalization (cols : List (List Char)) :
    ∀ n ∈ auto_sql_headers cols, n ≠ [] ∧ n.all isCanonChar = true := by
  intro n hn
  unfold auto_sql_headers unique at hn
  refine uniqueGo_canon _ [] ?_ n hn
  intro m hm
  rw [List.mem_map] at hm
  obtain ⟨p, -, hpm⟩ := hm
  rw [← hpm]
  exact auto_sql_entry_canon p.1 p.2

/-- Witness for C8: the accented header name "Código" canonicalizes to
the non-empty canonical name "codigo". -/
theorem name_normalization_witness :
    "codigo".data ≠ [] ∧ "codigo".data.all isCanonChar = true :=
  name_normalization ["Código".data] "codigo".data (by decide)
